import Mathlib

/- A shallow embedding of snapbug (src/main.rs): a command line tool that
   walks a directory tree, extracts python function declarations with the
   regex ^[^#]*def (\S.*)\s*\(.*$, spools every read line into a haystack
   file, counts textual occurrences of each declared name over that
   haystack, and reports the declarations whose name is mentioned fewer
   than two times, sorted by their (path, line) location. -/

abbrev Chars := List Char

abbrev FPath := List Chars

/-- The whitespace class of the declaration regex: the regex crate's \s is
    Unicode-aware and matches exactly the White_Space code points
    (U+0009-U+000D, space, U+0085, U+00A0, U+1680, U+2000-U+200A, U+2028,
    U+2029, U+202F, U+205F and U+3000); \S matches their complement. -/
def isSpaceC (c : Char) : Bool :=
  decide (0x09 ≤ c.toNat ∧ c.toNat ≤ 0x0d) || decide (c.toNat = 0x20) ||
  decide (c.toNat = 0x85) || decide (c.toNat = 0xa0) ||
  decide (c.toNat = 0x1680) ||
  decide (0x2000 ≤ c.toNat ∧ c.toNat ≤ 0x200a) ||
  decide (c.toNat = 0x2028) || decide (c.toNat = 0x2029) ||
  decide (c.toNat = 0x202f) || decide (c.toNat = 0x205f) ||
  decide (c.toNat = 0x3000)

/-- The literal keyword searched by the declaration regex. -/
def kw : Chars := ['d', 'e', 'f', ' ']

/-- The regex piece [^#]* : a prefix in which no hash sign occurs. -/
def hashFree (l : Chars) : Bool := l.all (fun c => !(c == '#'))

/-- After the keyword, the regex needs one non-space character at once and
    an opening parenthesis strictly later on the same line. -/
def innerOk (rest : Chars) : Bool :=
  match rest with
  | [] => false
  | c :: cs => !isSpaceC c && cs.contains '('

/-- Index of the last opening parenthesis of a line suffix (0 when there is
    none).  The greedy capture group runs to just before this position. -/
def lastParenIdx (rest : Chars) : Nat :=
  (((List.range rest.length).filter (fun j => rest.getD j ' ' == '(')).getLast?).getD 0

/-- A split point of the line at which the whole regex can match: a
    hash-free prefix of length i, the literal keyword, and a suffix
    accepted by the capture part of the pattern. -/
def goodSplit (line : Chars) (i : Nat) : Bool :=
  hashFree (line.take i) && ((line.drop i).take 4 == kw) && innerOk (line.drop (i + 4))

/-- The captured name of a line that matches the declaration regex of
    src/main.rs line 87.  The regex engine gives the greedy [^#]* as many
    characters as possible, so the largest workable split point wins; the
    greedy capture (\S.*) then runs to just before the last parenthesis of
    the suffix, the \s* in between matching the empty string. -/
def captureName (line : Chars) : Option Chars :=
  (((List.range (line.length + 1)).filter (goodSplit line)).getLast?).map
    (fun i => (line.drop (i + 4)).take (lastParenIdx (line.drop (i + 4))))

/-- Rust str::contains with a string pattern: substring containment. -/
def containsSub (s pat : Chars) : Bool := decide (pat <:+: s)

/-- Test and dunder methods are allowed to be unused (src/main.rs line 68). -/
def should_consider_function (name : Chars) : Bool :=
  !containsSub name ("test_".data) && !containsSub name ("__".data)

/-- Step function for Rust str::matches counting: the skip counter holds
    the number of characters of a just-found occurrence still to be stepped
    over, so occurrences never overlap. -/
def cmAux (pat : Chars) : Chars → Nat → Nat
  | [], _ => 0
  | c :: rest, 0 =>
      if List.isPrefixOf pat (c :: rest) then 1 + cmAux pat rest (pat.length - 1)
      else cmAux pat rest 0
  | _ :: rest, k + 1 => cmAux pat rest k

/-- Rust line.matches(pat).count(): the number of non-overlapping
    occurrences of pat in s, scanned from the left.  The empty pattern
    matches at every character boundary. -/
def countMatches (pat s : Chars) : Nat :=
  if pat.isEmpty then s.length + 1 else cmAux pat s 0

/-- A candidate declaration (struct Function of src/main.rs line 22): the
    extracted name together with the (path, 1-based line) location. -/
structure Function where
  name : Chars
  location : FPath × Nat
deriving DecidableEq

mutual
/-- A directory tree as the walker sees it.  A file name is none when it is
    not valid UTF-8.  A file body is an Except: error when opening the file
    fails, otherwise the list of line reads, each of which can itself fail.
    An errEntry stands for an item for which the walker itself yields an
    error (an entry that vanished or could not be read during the walk). -/
inductive FSNode : Type where
  | file : Option Chars → Except Unit (List (Except Unit Chars)) → FSNode
  | dir : Option Chars → FSList → FSNode
  | errEntry : FSNode
inductive FSList : Type where
  | nil : FSList
  | cons : FSNode → FSList → FSList
end

/-- Builds the children list of a directory from an ordinary list. -/
def FSList.ofList : List FSNode → FSList
  | [] => .nil
  | n :: ns => .cons n (FSList.ofList ns)

/-- The file name of an entry, none when it is not valid UTF-8. -/
def fnameOf : FSNode → Option Chars
  | .file n _ => n
  | .dir n _ => n
  | .errEntry => none

/-- We only consider non-hidden entries (src/main.rs line 40): file_name()
    .to_str() yields none for a non-UTF-8 name and unwrap_or(false) then
    rejects the entry, exactly as for a name starting with a dot. -/
def usefulName : Option Chars → Bool
  | none => false
  | some s =>
    match s with
    | [] => true
    | c :: _ => !(c == '.')

/-- The is_useful predicate of src/main.rs line 40 on a tree node. -/
def is_useful (n : FSNode) : Bool := usefulName (fnameOf n)

/-- Ends-with-".py" test on an entry name, false for a non-UTF-8 name. -/
def isPyName : Option Chars → Bool
  | none => false
  | some s => s.reverse.take 3 == ['y', 'p', '.']

/-- Assumes anything ending with .py is a python source file
    (src/main.rs line 49): the entry must be a regular file too. -/
def is_python_file (e : FPath × FSNode) : Bool :=
  match e.2 with
  | .file nm _ => isPyName nm
  | _ => false

mutual
/-- WalkDir with filter_entry(is_useful): depth-first enumeration of the
    tree that yields each surviving entry with its path (p is the path of
    the parent directory), prunes the whole subtree of a rejected
    directory, and yields walker failures as error items. -/
def walk (p : FPath) : FSNode → List (Except Unit (FPath × FSNode))
  | .errEntry => [.error ()]
  | .file nm c =>
      if usefulName nm then [.ok (p ++ [nm.getD []], .file nm c)] else []
  | .dir nm ch =>
      if usefulName nm then
        .ok (p ++ [nm.getD []], .dir nm ch) :: walkList (p ++ [nm.getD []]) ch
      else []
/-- Walks the children of a directory in order. -/
def walkList (p : FPath) : FSList → List (Except Unit (FPath × FSNode))
  | .nil => []
  | .cons n ns => walk p n ++ walkList p ns
end

/-- make_walker of src/main.rs line 59: the walkdir iterator, with error
    items silently discarded by filter_map(e.ok()) and non-python entries
    filtered away. -/
def make_walker (p : FPath) (n : FSNode) : List (FPath × FSNode) :=
  ((walk p n).filterMap (fun e =>
    match e with
    | .ok x => some x
    | .error _ => none)).filter is_python_file

/-- The declarations one line contributes (src/main.rs lines 99-107): the
    captured name, if any and if it passes should_consider_function, located
    at line i of file p. -/
def declsOf (p : FPath) (i : Nat) (l : Chars) : List Function :=
  match captureName l with
  | some nm => if should_consider_function nm then [⟨nm, (p, i)⟩] else []
  | none => []

/-- The inner loop of scan_path (src/main.rs lines 94-109) over the lines
    of one file, with i the 1-based number of the first line: propagates
    any line read error, collects the captured declarations that pass
    should_consider_function, and appends every line to the haystack with
    write_all(line.as_bytes()) - with no separator between lines. -/
def processLines (p : FPath) : Nat → List (Except Unit Chars) →
    Except Unit (List Function × Chars)
  | _, [] => .ok ([], [])
  | _, .error _ :: _ => .error ()
  | i, .ok l :: rest =>
      match processLines p (i + 1) rest with
      | .error e => .error e
      | .ok (fs, hs) => .ok (declsOf p i l ++ fs, l ++ hs)

/-- Opens one walked entry (src/main.rs line 94): a failing open aborts the
    scan.  Only python files reach this point. -/
def processEntry (e : FPath × FSNode) : Except Unit (List Function × Chars)
  :=
  match e.2 with
  | .file _ (.ok ls) => processLines e.1 1 ls
  | _ => .error ()

/-- Processes the walked files in order, concatenating declaration lists
    and haystack contents; the first I/O failure aborts everything. -/
def processEntries : List (FPath × FSNode) → Except Unit (List Function × Chars)
  | [] => .ok ([], [])
  | e :: es =>
      match processEntry e with
      | .error u => .error u
      | .ok (fs, hs) =>
          match processEntries es with
          | .error u => .error u
          | .ok (fs2, hs2) => .ok (fs ++ fs2, hs ++ hs2)

/-- scan_path of src/main.rs line 86: walks the tree, collecting the set of
    declared functions (the HashSet is modelled as a deduplicated list in
    discovery order) and the haystack contents. -/
def scan_path (p : FPath) (n : FSNode) : Except Unit (List Function × Chars)
  :=
  match processEntries (make_walker p n) with
  | .error u => .error u
  | .ok (fns, hs) => .ok (fns.dedup, hs)

/-- Reading the haystack temp file back with BufReader lines(): the file
    holds the separator-free concatenation of all corpus lines, so it reads
    back as a single line when non-empty and as no line at all when empty. -/
def haystackLines (hs : Chars) : List Chars :=
  match hs with
  | [] => []
  | _ => [hs]

/-- The counts HashMap of scan_for_unused_functions (src/main.rs lines
    120-127) as an association list in candidate order: an entry for a
    function exists exactly when at least one haystack line was processed
    (the entry-or-insert runs once per line per function), and its value is
    the total of countMatches over the haystack lines. -/
def countsTable (hs : Chars) (fns : List Function) : List (Function × Nat) :=
  match haystackLines hs with
  | [] => []
  | _ =>
      fns.map (fun f =>
        (f, ((haystackLines hs).map (fun l => countMatches f.name l)).sum))

/-- The sort key order used at src/main.rs line 79: Rust compares the
    location tuples, a PathBuf ordering its components left to right, each
    component by its text. -/
def locLeP (a b : Function) : Prop :=
  a.location.1 < b.location.1 ∨
    (a.location.1 = b.location.1 ∧ a.location.2 ≤ b.location.2)

instance : DecidableRel locLeP := fun a b => by
  unfold locLeP
  infer_instance

instance : IsTotal Function locLeP :=
  ⟨fun a b => by
    rcases lt_trichotomy a.location.1 b.location.1 with h | h | h
    · exact Or.inl (Or.inl h)
    · rcases Nat.le_total a.location.2 b.location.2 with h2 | h2
      · exact Or.inl (Or.inr ⟨h, h2⟩)
      · exact Or.inr (Or.inr ⟨h.symm, h2⟩)
    · exact Or.inr (Or.inl h)⟩

instance : IsTrans Function locLeP :=
  ⟨fun a b c hab hbc => by
    rcases hab with h1 | ⟨h1, h1'⟩
    · rcases hbc with h2 | ⟨h2, _⟩
      · exact Or.inl (h1.trans h2)
      · exact Or.inl (h2 ▸ h1)
    · rcases hbc with h2 | ⟨h2, h2'⟩
      · exact Or.inl (h1 ▸ h2)
      · exact Or.inr ⟨h1.trans h2, h1'.trans h2'⟩⟩

/-- find_unused_functions of src/main.rs line 73: keep the entries whose
    count is below two, forget the counts, and sort by location.  The sort
    is modelled with insertionSort over the location order. -/
def find_unused_functions (tbl : List (Function × Nat)) : List Function :=
  List.insertionSort locLeP ((tbl.filter (fun pr => decide (pr.2 < 2))).map Prod.fst)

/-- scan_for_unused_functions of src/main.rs line 116: count every
    candidate over the haystack lines and keep the rare ones. -/
def scan_for_unused_functions (hs : Chars) (fns : List Function) : List Function :=
  find_unused_functions (countsTable hs fns)

/-- main of src/main.rs line 133 after argument validation: scan the tree,
    then classify; any I/O failure aborts with an error. -/
def main_run (p : FPath) (n : FSNode) : Except Unit (List Function) :=
  match scan_path p n with
  | .error u => .error u
  | .ok (fns, hs) => .ok (scan_for_unused_functions hs fns)

/-- should_fail of src/main.rs line 143. -/
def should_fail (unused : List Function) : Bool := decide (0 < unused.length)

/-- The process exits with code zero exactly when main returns Ok, i.e.
    when the scan succeeded and should_fail stayed false. -/
def exit_zero (p : FPath) (n : FSNode) : Bool :=
  match main_run p n with
  | .ok unused => !should_fail unused
  | .error _ => false

/-- True when the raw walkdir stream over the tree contains an error item. -/
def walk_has_error (p : FPath) (n : FSNode) : Bool :=
  (walk p n).any (fun e =>
    match e with
    | .error _ => true
    | .ok _ => false)

/-- True when opening the entry fails or some line read of it fails. -/
def entry_has_io_error : FPath × FSNode → Bool
  | (_, .file _ (.error _)) => true
  | (_, .file _ (.ok ls)) =>
      ls.any (fun l =>
        match l with
        | .error _ => true
        | .ok _ => false)
  | _ => false

/-- Modelled from the spec: the per-line counting rule of the Occurrence
    Counter, summing the non-overlapping occurrences of a name line by
    line over the corpus ("for every line in the corpus ... add the number
    of non-overlapping substring occurrences of that Function's name
    within that line").  The code deviates from this by concatenating the
    corpus lines without separators before counting. -/
def specPerLineCount (corpus : List Chars) (name : Chars) : Nat :=
  (corpus.map (fun l => countMatches name l)).sum

/-- A display path: the components joined with slashes, for talking about
    lexicographic order on whole path strings. -/
def joinPath (p : FPath) : Chars := List.intercalate ['/'] p

/- ===== Concrete inputs used to exercise the model ===== -/

/-- A tree with one file a.py holding the lines "def ab():", "xa", "bx". -/
def t1 : FSNode :=
  .dir (some ("r".data)) (FSList.ofList
    [.file (some ("a.py".data))
      (.ok [.ok ("def ab():".data), .ok ("xa".data), .ok ("bx".data)])])

/-- A tree in which the walker yields one error item besides a healthy
    python file with the single line "x". -/
def t2 : FSNode :=
  .dir (some ("r".data)) (FSList.ofList
    [.errEntry, .file (some ("a.py".data)) (.ok [.ok ("x".data)])])

/-- A tree with directories a-b and a, each holding one python file with a
    single declaration. -/
def t4 : FSNode :=
  .dir (some ("r".data)) (FSList.ofList
    [.dir (some ("a-b".data)) (FSList.ofList
       [.file (some ("c.py".data)) (.ok [.ok ("def qone():".data)])]),
     .dir (some ("a".data)) (FSList.ofList
       [.file (some ("d.py".data)) (.ok [.ok ("def qtwo():".data)])])])

/-- The declaration of qone as the scan of t4 produces it. -/
def f_qone : Function := ⟨"qone".data, (["r".data, "a-b".data, "c.py".data], 1)⟩

/-- The declaration of qtwo as the scan of t4 produces it. -/
def f_qtwo : Function := ⟨"qtwo".data, (["r".data, "a".data, "d.py".data], 1)⟩

/-- A tree with one file a.py declaring lone (never referenced again) and
    used (referenced once more on the third line). -/
def t5 : FSNode :=
  .dir (some ("r".data)) (FSList.ofList
    [.file (some ("a.py".data))
      (.ok [.ok ("def lone():".data), .ok ("def used():".data),
            .ok ("x = used()".data)])])

/-- The haystack contents the scan of t5 produces: all lines of a.py
    concatenated without separators. -/
def hs5 : Chars := ("def lone():def used():x = used()".data)

/-- The declaration of lone as the scan of t5 produces it. -/
def f_lone : Function := ⟨"lone".data, (["r".data, "a.py".data], 1)⟩

/-- The declaration of used as the scan of t5 produces it. -/
def f_used : Function := ⟨"used".data, (["r".data, "a.py".data], 2)⟩

/-- A file entry whose name is not valid UTF-8. -/
def bad10 : FSNode := .file none (.ok [.ok ("def zzz():".data)])

/- ===== Helper lemmas: greatest element of a filtered range ===== -/

theorem mem_filter_range {n j : Nat} {p : Nat → Bool} :
    j ∈ (List.range n).filter p ↔ j < n ∧ p j = true := by
  simp [List.mem_filter, List.mem_range]

theorem le_getLast_of_pairwise_lt :
    ∀ {l : List Nat}, l.Pairwise (· < ·) → ∀ {i : Nat}, l.getLast? = some i →
      ∀ j ∈ l, j ≤ i := by
  intro l
  induction l with
  | nil => intro _ i hi; simp at hi
  | cons a t ih =>
      intro hp i hi j hj
      cases t with
      | nil =>
          rw [List.getLast?_singleton] at hi
          cases hi
          rcases List.mem_cons.mp hj with h | h
          · exact Nat.le_of_eq h
          · simp at h
      | cons b t' =>
          rw [List.getLast?_cons_cons] at hi
          rcases List.pairwise_cons.mp hp with ⟨hrel, htail⟩
          rcases List.mem_cons.mp hj with h | h
          · have hb : b ≤ i := ih htail hi b (by simp)
            have hab : a < b := hrel b (by simp)
            omega
          · exact ih htail hi j h

theorem getLast?_filter_range {n : Nat} {p : Nat → Bool} {i : Nat}
    (h : ((List.range n).filter p).getLast? = some i) :
    (i < n ∧ p i = true) ∧ ∀ j, j < n → p j = true → j ≤ i := by
  have hmem := List.mem_of_getLast?_eq_some h
  refine ⟨mem_filter_range.mp hmem, ?_⟩
  intro j hj hpj
  exact le_getLast_of_pairwise_lt ((List.pairwise_lt_range n).filter p) h j
    (mem_filter_range.mpr ⟨hj, hpj⟩)

theorem getLast?_filter_range_isSome {n : Nat} {p : Nat → Bool} {j : Nat}
    (hj : j < n) (hpj : p j = true) :
    ∃ i, ((List.range n).filter p).getLast? = some i := by
  have hne : (List.range n).filter p ≠ [] := by
    intro he
    have hm := mem_filter_range.mpr ⟨hj, hpj⟩
    rw [he] at hm
    simp at hm
  obtain ⟨i, hi⟩ := Option.isSome_iff_exists.mp (List.getLast?_isSome.mpr hne)
  exact ⟨i, hi⟩

/- ===== Helper lemmas: the declaration regex ===== -/

theorem goodSplit_decomp {line : Chars} {i : Nat} (h : goodSplit line i = true) :
    line = line.take i ++ kw ++ line.drop (i + 4) ∧
      hashFree (line.take i) = true ∧ innerOk (line.drop (i + 4)) = true ∧
      (line.take i).length = i := by
  unfold goodSplit at h
  simp only [Bool.and_eq_true] at h
  obtain ⟨⟨h1, h2⟩, h3⟩ := h
  have h2' : (line.drop i).take 4 = kw := beq_iff_eq.mp h2
  have hlen4 : ((line.drop i).take 4).length = 4 := by rw [h2']; rfl
  rw [List.length_take, List.length_drop] at hlen4
  have hle : i + 4 ≤ line.length := by omega
  have hdec : line = line.take i ++ kw ++ line.drop (i + 4) := by
    conv_lhs => rw [← List.take_append_drop i line]
    rw [List.append_assoc]
    congr 1
    conv_lhs => rw [← List.take_append_drop 4 (line.drop i)]
    rw [h2', List.drop_drop]
  refine ⟨hdec, h1, h3, ?_⟩
  rw [List.length_take]
  omega

theorem goodSplit_of_decomp {pre rest : Chars} (h1 : hashFree pre = true)
    (h2 : innerOk rest = true) :
    goodSplit (pre ++ kw ++ rest) pre.length = true := by
  have hkw : kw.length = 4 := rfl
  have ht : (pre ++ kw ++ rest).take pre.length = pre := by
    rw [List.append_assoc]
    exact List.take_left pre (kw ++ rest)
  have hd : (pre ++ kw ++ rest).drop pre.length = kw ++ rest := by
    rw [List.append_assoc]
    exact List.drop_left pre (kw ++ rest)
  have hd4 : (pre ++ kw ++ rest).drop (pre.length + 4) = rest := by
    rw [← List.drop_drop, hd, ← hkw]
    exact List.drop_left kw rest
  unfold goodSplit
  rw [ht, hd, hd4, h1, h2]
  have : (kw ++ rest).take 4 = kw := by
    rw [← hkw]
    exact List.take_left kw rest
  simp [this]

theorem goodSplit_lt {line : Chars} {i : Nat} (h : goodSplit line i = true) :
    i < line.length + 1 := by
  obtain ⟨hdec, _, _, hlen⟩ := goodSplit_decomp h
  have : (line.take i).length ≤ line.length := by
    rw [List.length_take]; omega
  omega

theorem captureName_isSome_iff {line : Chars} :
    (captureName line).isSome = true ↔ ∃ i, goodSplit line i = true := by
  unfold captureName
  constructor
  · intro h
    rw [Option.isSome_map'] at h
    obtain ⟨i, hi⟩ := Option.isSome_iff_exists.mp h
    exact ⟨i, (getLast?_filter_range hi).1.2⟩
  · rintro ⟨i, hi⟩
    obtain ⟨m, hm⟩ := getLast?_filter_range_isSome (goodSplit_lt hi) hi
    rw [hm]
    rfl

theorem captureName_eq_some {line nm : Chars} (h : captureName line = some nm) :
    ∃ i, goodSplit line i = true ∧
      nm = (line.drop (i + 4)).take (lastParenIdx (line.drop (i + 4))) ∧
      ∀ j, goodSplit line j = true → j ≤ i := by
  unfold captureName at h
  cases hg : ((List.range (line.length + 1)).filter (goodSplit line)).getLast? with
  | none => rw [hg] at h; simp at h
  | some i =>
      rw [hg] at h
      simp only [Option.map_some'] at h
      obtain ⟨⟨_, hpi⟩, hmax⟩ := getLast?_filter_range hg
      refine ⟨i, hpi, (Option.some_injective _ h).symm, ?_⟩
      intro j hj
      exact hmax j (goodSplit_lt hj) hj

theorem lastParenIdx_spec {rest : Chars} (h : innerOk rest = true) :
    1 ≤ lastParenIdx rest ∧ lastParenIdx rest < rest.length := by
  unfold innerOk at h
  cases rest with
  | nil => simp at h
  | cons c cs =>
      simp only [Bool.and_eq_true] at h
      have hc : '(' ∈ cs := by simpa using h.2
      obtain ⟨k, hk, hck⟩ := List.mem_iff_getElem.mp hc
      have hkd : ((c :: cs).getD (k + 1) ' ' == '(') = true := by
        rw [List.getD_cons_succ, List.getD_eq_getElem cs ' ' hk, hck]
        rfl
      have hklt : k + 1 < (c :: cs).length := by
        simp only [List.length_cons]
        omega
      obtain ⟨m, hm⟩ := getLast?_filter_range_isSome (p := fun j => (c :: cs).getD j ' ' == '(')
        hklt hkd
      obtain ⟨⟨hmlt, _⟩, hmax⟩ := getLast?_filter_range hm
      have hkm : k + 1 ≤ m := hmax (k + 1) hklt hkd
      unfold lastParenIdx
      rw [hm]
      simp only [Option.getD_some]
      exact ⟨by omega, hmlt⟩

theorem captureName_shape {line nm : Chars} (h : captureName line = some nm) :
    nm ≠ [] ∧ nm <:+: line := by
  obtain ⟨i, hgood, hnm, _⟩ := captureName_eq_some h
  obtain ⟨_, _, hinner, _⟩ := goodSplit_decomp hgood
  obtain ⟨hge, hlt⟩ := lastParenIdx_spec hinner
  constructor
  · rw [hnm]
    intro he
    have : ((line.drop (i + 4)).take (lastParenIdx (line.drop (i + 4)))).length = 0 := by
      rw [he]; rfl
    rw [List.length_take] at this
    omega
  · rw [hnm]
    exact (List.take_prefix _ _).isInfix.trans (List.drop_suffix _ _).isInfix


/- ===== Helper lemmas: occurrence counting ===== -/

theorem cmAux_pos {pat : Chars} (hne : pat ≠ []) :
    ∀ {s : Chars}, pat <:+: s → 1 ≤ cmAux pat s 0 := by
  intro s
  induction s with
  | nil =>
      intro hinf
      exact absurd (List.infix_nil.mp hinf) hne
  | cons c rest ih =>
      intro hinf
      by_cases hp : List.isPrefixOf pat (c :: rest) = true
      · simp [cmAux, hp]
      · have hp' : List.isPrefixOf pat (c :: rest) = false :=
          Bool.eq_false_iff.mpr hp
        rcases List.infix_cons_iff.mp hinf with hpre | hinf2
        · rw [ List.isPrefixOf_iff_prefix] at hp
          exact absurd hpre hp
        · have hrec := ih hinf2
          simpa [cmAux, hp'] using hrec

theorem countMatches_pos {pat s : Chars} (hne : pat ≠ []) (hinf : pat <:+: s) :
    1 ≤ countMatches pat s := by
  unfold countMatches
  rw [if_neg]
  · exact cmAux_pos hne hinf
  · simpa using hne

/- ===== Helper lemmas: processing the walked files ===== -/

theorem declsOf_cases (p : FPath) (i : Nat) (l : Chars) :
    declsOf p i l = [] ∨
      ∃ nm, captureName l = some nm ∧ should_consider_function nm = true ∧
        declsOf p i l = [⟨nm, (p, i)⟩] := by
  unfold declsOf
  cases hcap : captureName l with
  | none => exact Or.inl rfl
  | some nm =>
      by_cases hsc : should_consider_function nm = true
      · exact Or.inr ⟨nm, rfl, hsc, by simp [hsc]⟩
      · left
        simp [hsc]

theorem mem_declsOf {p : FPath} {i : Nat} {l : Chars} {f : Function}
    (hf : f ∈ declsOf p i l) :
    ∃ nm, captureName l = some nm ∧ should_consider_function nm = true ∧
      f = ⟨nm, (p, i)⟩ := by
  rcases declsOf_cases p i l with h | ⟨nm, hc, hs, h⟩
  · rw [h] at hf
    simp at hf
  · rw [h] at hf
    exact ⟨nm, hc, hs, by simpa using hf⟩

theorem processLines_spec :
    ∀ (ls : List (Except Unit Chars)) (p : FPath) (i : Nat)
      {fs : List Function} {hsOut : Chars},
      processLines p i ls = .ok (fs, hsOut) →
      ∀ f ∈ fs, f.location.1 = p ∧ i ≤ f.location.2 ∧
        should_consider_function f.name = true ∧ f.name ≠ [] ∧
        f.name <:+: hsOut := by
  intro ls
  induction ls with
  | nil =>
      intro p i fs hsOut h f hf
      simp only [processLines, Except.ok.injEq, Prod.mk.injEq] at h
      rw [← h.1] at hf
      simp at hf
  | cons e rest ih =>
      intro p i fs hsOut h f hf
      cases e with
      | error u => simp [processLines] at h
      | ok l =>
          rw [processLines] at h
          cases hrec : processLines p (i + 1) rest with
          | error u => rw [hrec] at h; simp at h
          | ok pr =>
              obtain ⟨fs2, hs2⟩ := pr
              rw [hrec] at h
              simp only [Except.ok.injEq, Prod.mk.injEq] at h
              obtain ⟨hfs, hhs⟩ := h
              rw [← hfs] at hf
              rw [← hhs]
              rcases List.mem_append.mp hf with hcur | htail
              · obtain ⟨nm, hcap, hsc, hfe⟩ := mem_declsOf hcur
                obtain ⟨hnm_ne, hnm_inf⟩ := captureName_shape hcap
                refine ⟨by rw [hfe], by rw [hfe], ?_, ?_, ?_⟩
                · rw [hfe]
                  exact hsc
                · rw [hfe]
                  exact hnm_ne
                · rw [hfe]
                  exact hnm_inf.trans (List.prefix_append l hs2).isInfix
              · obtain ⟨h1, h2, h3, h4, h5⟩ := ih p (i + 1) hrec f htail
                exact ⟨h1, by omega, h3, h4,
                  h5.trans (List.suffix_append l hs2).isInfix⟩

theorem processLines_pairwise :
    ∀ (ls : List (Except Unit Chars)) (p : FPath) (i : Nat)
      {fs : List Function} {hsOut : Chars},
      processLines p i ls = .ok (fs, hsOut) →
      fs.Pairwise (fun f g => f.location.2 < g.location.2) := by
  intro ls
  induction ls with
  | nil =>
      intro p i fs hsOut h
      simp only [processLines, Except.ok.injEq, Prod.mk.injEq] at h
      rw [← h.1]
      exact List.Pairwise.nil
  | cons e rest ih =>
      intro p i fs hsOut h
      cases e with
      | error u => simp [processLines] at h
      | ok l =>
          rw [processLines] at h
          cases hrec : processLines p (i + 1) rest with
          | error u => rw [hrec] at h; simp at h
          | ok pr =>
              obtain ⟨fs2, hs2⟩ := pr
              rw [hrec] at h
              simp only [Except.ok.injEq, Prod.mk.injEq] at h
              rw [← h.1]
              rw [List.pairwise_append]
              refine ⟨?_, ih p (i + 1) hrec, ?_⟩
              · rcases declsOf_cases p i l with hd | ⟨nm, _, _, hd⟩
                · rw [hd]
                  exact List.Pairwise.nil
                · rw [hd]
                  simp
              · intro a ha b hb
                have hbtail := (processLines_spec rest p (i + 1) hrec b hb).2.1
                obtain ⟨nm, _, _, hae⟩ := mem_declsOf ha
                rw [hae]
                simp only
                omega

theorem processEntry_ok {e : FPath × FSNode} {fs : List Function} {hs : Chars}
    (h : processEntry e = .ok (fs, hs)) :
    ∃ nm ls, e.2 = .file nm (.ok ls) ∧ processLines e.1 1 ls = .ok (fs, hs) := by
  obtain ⟨p, n⟩ := e
  cases n with
  | file nm c =>
      cases c with
      | ok ls => exact ⟨nm, ls, rfl, h⟩
      | error u => simp [processEntry] at h
  | dir nm ch => simp [processEntry] at h
  | errEntry => simp [processEntry] at h

theorem processEntries_spec :
    ∀ (es : List (FPath × FSNode)) {fns : List Function} {hs : Chars},
      processEntries es = .ok (fns, hs) →
      ∀ f ∈ fns, f.location.1 ∈ es.map Prod.fst ∧
        should_consider_function f.name = true ∧ f.name ≠ [] ∧
        f.name <:+: hs := by
  intro es
  induction es with
  | nil =>
      intro fns hs h f hf
      simp only [processEntries, Except.ok.injEq, Prod.mk.injEq] at h
      rw [← h.1] at hf
      simp at hf
  | cons e rest ih =>
      intro fns hs h f hf
      rw [processEntries] at h
      cases he : processEntry e with
      | error u => rw [he] at h; simp at h
      | ok pr =>
          obtain ⟨fs1, hs1⟩ := pr
          rw [he] at h
          cases hrest : processEntries rest with
          | error u => rw [hrest] at h; simp at h
          | ok pr2 =>
              obtain ⟨fs2, hs2⟩ := pr2
              rw [hrest] at h
              simp only [Except.ok.injEq, Prod.mk.injEq] at h
              obtain ⟨hfs, hhs⟩ := h
              rw [← hfs] at hf
              rw [← hhs]
              obtain ⟨nm, ls, he2, hpl⟩ := processEntry_ok he
              rcases List.mem_append.mp hf with h1 | h2
              · obtain ⟨hp, _, hsc, hne, hinf⟩ := processLines_spec ls e.1 1 hpl f h1
                refine ⟨?_, hsc, hne, hinf.trans (List.prefix_append hs1 hs2).isInfix⟩
                rw [List.map_cons, hp]
                exact List.mem_cons_self _ _
              · obtain ⟨hp, hsc, hne, hinf⟩ := ih hrest f h2
                refine ⟨?_, hsc, hne, hinf.trans (List.suffix_append hs1 hs2).isInfix⟩
                rw [List.map_cons]
                exact List.mem_cons_of_mem _ hp

theorem processEntries_locs_pairwise :
    ∀ (es : List (FPath × FSNode)) {fns : List Function} {hs : Chars},
      processEntries es = .ok (fns, hs) →
      (es.map Prod.fst).Nodup →
      fns.Pairwise (fun f g => f.location ≠ g.location) := by
  intro es
  induction es with
  | nil =>
      intro fns hs h _
      simp only [processEntries, Except.ok.injEq, Prod.mk.injEq] at h
      rw [← h.1]
      exact List.Pairwise.nil
  | cons e rest ih =>
      intro fns hs h hnd
      rw [processEntries] at h
      cases he : processEntry e with
      | error u => rw [he] at h; simp at h
      | ok pr =>
          obtain ⟨fs1, hs1⟩ := pr
          rw [he] at h
          cases hrest : processEntries rest with
          | error u => rw [hrest] at h; simp at h
          | ok pr2 =>
              obtain ⟨fs2, hs2⟩ := pr2
              rw [hrest] at h
              simp only [Except.ok.injEq, Prod.mk.injEq] at h
              rw [← h.1]
              rw [List.map_cons, List.nodup_cons] at hnd
              obtain ⟨hhead, htail⟩ := hnd
              rw [List.pairwise_append]
              obtain ⟨nm, ls, he2, hpl⟩ := processEntry_ok he
              refine ⟨?_, ih hrest htail, ?_⟩
              · refine (processLines_pairwise ls e.1 1 hpl).imp ?_
                intro a b hlt heq
                have h2 : a.location.2 = b.location.2 := congrArg Prod.snd heq
                omega
              · intro a ha b hb heq
                have hap := (processLines_spec ls e.1 1 hpl a ha).1
                have hbp := (processEntries_spec rest hrest b hb).1
                have h1 : a.location.1 = b.location.1 := congrArg Prod.fst heq
                rw [← h1, hap] at hbp
                exact hhead hbp

theorem processLines_error_iff :
    ∀ (ls : List (Except Unit Chars)) (p : FPath) (i : Nat),
      processLines p i ls = .error () ↔
        ls.any (fun l =>
          match l with
          | .error _ => true
          | .ok _ => false) = true := by
  intro ls
  induction ls with
  | nil => intro p i; simp [processLines]
  | cons e rest ih =>
      intro p i
      cases e with
      | error u => cases u; simp [processLines]
      | ok l =>
          rw [processLines]
          cases hrec : processLines p (i + 1) rest with
          | error u =>
              cases u
              simp only [List.any_cons]
              constructor
              · intro _
                have := (ih p (i + 1)).mp hrec
                simp [this]
              · intro _
                trivial
          | ok pr =>
              obtain ⟨fs, hs⟩ := pr
              simp only [List.any_cons]
              constructor
              · intro hcontr
                simp at hcontr
              · intro hany
                have hany' : rest.any (fun l =>
                    match l with
                    | .error _ => true
                    | .ok _ => false) = true := by simpa using hany
                have := (ih p (i + 1)).mpr hany'
                rw [this] at hrec
                simp at hrec

theorem processEntry_error_iff {e : FPath × FSNode} (hpy : is_python_file e = true) :
    processEntry e = .error () ↔ entry_has_io_error e = true := by
  obtain ⟨p, n⟩ := e
  cases n with
  | file nm c =>
      cases c with
      | error u =>
          cases u
          simp [processEntry, entry_has_io_error]
      | ok ls =>
          simp only [processEntry, entry_has_io_error]
          exact processLines_error_iff ls p 1
  | dir nm ch => simp [is_python_file] at hpy
  | errEntry => simp [is_python_file] at hpy

theorem processEntries_error_iff :
    ∀ (es : List (FPath × FSNode)),
      (∀ e ∈ es, is_python_file e = true) →
      (processEntries es = .error () ↔ es.any entry_has_io_error = true) := by
  intro es
  induction es with
  | nil => intro _; simp [processEntries]
  | cons e rest ih =>
      intro hall
      rw [processEntries]
      cases he : processEntry e with
      | error u =>
          cases u
          have hee : entry_has_io_error e = true :=
            (processEntry_error_iff (hall e (List.mem_cons_self _ _))).mp he
          simp [hee]
      | ok pr =>
          obtain ⟨fs, hs⟩ := pr
          have hne : entry_has_io_error e = false := by
            rcases Bool.eq_false_or_eq_true (entry_has_io_error e) with hc | hc
            · have := (processEntry_error_iff (hall e (List.mem_cons_self _ _))).mpr hc
              rw [this] at he
              simp at he
            · exact hc
          have ihr := ih (fun x hx => hall x (List.mem_cons_of_mem _ hx))
          cases hrest : processEntries rest with
          | error u =>
              cases u
              have : rest.any entry_has_io_error = true := ihr.mp hrest
              simp [hne, this]
          | ok pr2 =>
              obtain ⟨fs2, hs2⟩ := pr2
              have hrf : rest.any entry_has_io_error = false := by
                rcases Bool.eq_false_or_eq_true (rest.any entry_has_io_error) with hc | hc
                · have := ihr.mpr hc
                  rw [this] at hrest
                  simp at hrest
                · exact hc
              simp [hne, hrf]

theorem make_walker_python {p : FPath} {n : FSNode} {e : FPath × FSNode}
    (he : e ∈ make_walker p n) : is_python_file e = true :=
  (List.mem_filter.mp he).2

theorem scan_path_ok {p : FPath} {n : FSNode} {fns : List Function} {hs : Chars}
    (h : scan_path p n = .ok (fns, hs)) :
    ∃ fns0, processEntries (make_walker p n) = .ok (fns0, hs) ∧
      fns = fns0.dedup := by
  unfold scan_path at h
  cases hpe : processEntries (make_walker p n) with
  | error u => rw [hpe] at h; simp at h
  | ok pr =>
      obtain ⟨fns0, hs0⟩ := pr
      rw [hpe] at h
      simp only [Except.ok.injEq, Prod.mk.injEq] at h
      exact ⟨fns0, by rw [h.2], h.1.symm⟩

theorem scan_path_error_iff (p : FPath) (n : FSNode) :
    scan_path p n = .error () ↔
      processEntries (make_walker p n) = .error () := by
  unfold scan_path
  cases hpe : processEntries (make_walker p n) with
  | error u => cases u; simp
  | ok pr =>
      obtain ⟨fns0, hs0⟩ := pr
      simp

/- ===== Helper lemmas: classification and sorting ===== -/

theorem countsTable_eq {hs : Chars} (hne : hs ≠ []) (fns : List Function) :
    countsTable hs fns = fns.map (fun f => (f, countMatches f.name hs)) := by
  cases hs with
  | nil => exact absurd rfl hne
  | cons c t => simp [countsTable, haystackLines]

theorem mem_find_unused {tbl : List (Function × Nat)} {f : Function} :
    f ∈ find_unused_functions tbl ↔ ∃ k, (f, k) ∈ tbl ∧ k < 2 := by
  unfold find_unused_functions
  rw [List.Perm.mem_iff (List.perm_insertionSort _ _)]
  constructor
  · intro h
    obtain ⟨pr, hpr, hfst⟩ := List.mem_map.mp h
    obtain ⟨hmem, hq⟩ := List.mem_filter.mp hpr
    refine ⟨pr.2, ?_, by simpa using hq⟩
    rw [← hfst]
    simpa using hmem
  · rintro ⟨k, hmem, hk⟩
    exact List.mem_map.mpr ⟨(f, k), List.mem_filter.mpr ⟨hmem, by simpa using hk⟩, rfl⟩

theorem mem_scan_for_unused {hs : Chars} {fns : List Function} {f : Function} :
    f ∈ scan_for_unused_functions hs fns ↔
      hs ≠ [] ∧ f ∈ fns ∧ countMatches f.name hs < 2 := by
  by_cases hhs : hs = []
  · subst hhs
    have h1 : scan_for_unused_functions [] fns = [] := rfl
    rw [h1]
    simp
  · unfold scan_for_unused_functions
    rw [countsTable_eq hhs, mem_find_unused]
    constructor
    · rintro ⟨k, hmem, hk⟩
      obtain ⟨g, hg, heq⟩ := List.mem_map.mp hmem
      rw [Prod.mk.injEq] at heq
      obtain ⟨h1, h2⟩ := heq
      subst h1
      rw [← h2] at hk
      exact ⟨hhs, hg, hk⟩
    · rintro ⟨_, hmem, hcnt⟩
      exact ⟨countMatches f.name hs, List.mem_map.mpr ⟨f, hmem, rfl⟩, hcnt⟩

theorem locLeP_antisymm_on {a b : Function} (h1 : locLeP a b) (h2 : locLeP b a) :
    a.location = b.location := by
  rcases h1 with h | ⟨hp, hl⟩
  · rcases h2 with h' | ⟨hp', _⟩
    · exact absurd (h.trans h') (lt_irrefl _)
    · rw [hp'] at h
      exact absurd h (lt_irrefl _)
  · rcases h2 with h' | ⟨hp', hl'⟩
    · rw [hp] at h'
      exact absurd h' (lt_irrefl _)
    · exact Prod.ext hp (Nat.le_antisymm hl hl')

theorem sorted_perm_nodup_eq :
    ∀ {l1 l2 : List Function}, l1.Perm l2 →
      (l1.map (fun f => f.location)).Nodup →
      l1.Sorted locLeP → l2.Sorted locLeP → l1 = l2 := by
  intro l1
  induction l1 with
  | nil =>
      intro l2 hp _ _ _
      exact (List.Perm.eq_nil hp.symm).symm
  | cons a t ih =>
      intro l2 hp hnd hs1 hs2
      cases l2 with
      | nil =>
          have := List.Perm.eq_nil hp
          simp at this
      | cons b t2 =>
          have hab : a = b := by
            by_contra hne
            have hbmem : b ∈ a :: t := hp.mem_iff.mpr (List.mem_cons_self b t2)
            have hamem : a ∈ b :: t2 := hp.mem_iff.mp (List.mem_cons_self a t)
            have hbt : b ∈ t := by
              rcases List.mem_cons.mp hbmem with h | h
              · exact absurd h.symm hne
              · exact h
            have hat : a ∈ t2 := by
              rcases List.mem_cons.mp hamem with h | h
              · exact absurd h hne
              · exact h
            have h1 : locLeP a b := (List.sorted_cons.mp hs1).1 b hbt
            have h2 : locLeP b a := (List.sorted_cons.mp hs2).1 a hat
            have hloc := locLeP_antisymm_on h1 h2
            rw [List.map_cons, List.nodup_cons] at hnd
            refine hnd.1 ?_
            rw [hloc]
            exact List.mem_map_of_mem (fun f => f.location) hbt
          subst hab
          have hpt : t.Perm t2 := hp.cons_inv
          rw [List.map_cons, List.nodup_cons] at hnd
          rw [ih hpt hnd.2 (List.sorted_cons.mp hs1).2 (List.sorted_cons.mp hs2).2]

theorem insertionSort_eq_of_perm {l1 l2 : List Function}
    (hp : l1.Perm l2) (hnd : (l1.map (fun f => f.location)).Nodup) :
    List.insertionSort locLeP l1 = List.insertionSort locLeP l2 := by
  have hperm : List.Perm ((List.insertionSort locLeP l1).map (fun f => f.location))
      (l1.map (fun f => f.location)) :=
    (List.perm_insertionSort locLeP l1).map _
  exact sorted_perm_nodup_eq
    ((List.perm_insertionSort locLeP l1).trans
      (hp.trans (List.perm_insertionSort locLeP l2).symm))
    (hperm.symm.nodup hnd)
    (List.sorted_insertionSort locLeP l1)
    (List.sorted_insertionSort locLeP l2)

/- ===== Helper lemmas: the tree walk ===== -/

theorem walk_dir_true {dnm : Option Chars} (h : usefulName dnm = true)
    (p : FPath) (ch : FSList) :
    walk p (.dir dnm ch) =
      .ok (p ++ [dnm.getD []], .dir dnm ch) :: walkList (p ++ [dnm.getD []]) ch := by
  simp [walk, h]

theorem walk_dir_false {dnm : Option Chars} (h : usefulName dnm = false)
    (p : FPath) (ch : FSList) :
    walk p (.dir dnm ch) = [] := by
  simp [walk, h]

theorem walkList_ofList_append (p : FPath) (l1 l2 : List FSNode) :
    walkList p (FSList.ofList (l1 ++ l2)) =
      walkList p (FSList.ofList l1) ++ walkList p (FSList.ofList l2) := by
  induction l1 with
  | nil => simp [FSList.ofList, walkList]
  | cons n ns ih => simp [FSList.ofList, walkList, ih]

theorem walk_none (q : FPath) (bad : FSNode)
    (hbad : (∃ c, bad = FSNode.file none c) ∨ ∃ ch, bad = FSNode.dir none ch) :
    walk q bad = [] := by
  rcases hbad with ⟨c, hc⟩ | ⟨ch, hc⟩
  · rw [hc]
    rfl
  · rw [hc]
    rfl

/- ===== The claims ===== -/

/-- C1: the claim says the total occurrence count of a candidate equals the
    sum over the corpus lines of the per-line non-overlapping occurrence
    counts, so that line boundaries cannot affect it.  The code violates
    this: scan_path writes the lines into the haystack file without any
    separator, so the corpus is counted as one concatenated line and a name
    can match across a line boundary.  On the tree t1 (lines "def ab():",
    "xa", "bx") the per-line total for "ab" is 1, so the claim reports ab
    as unused, but the code counts the extra occurrence spanning the
    "xa"/"bx" boundary, reaches 2, and reports nothing. -/
theorem c1_line_boundary_divergence :
    main_run [] t1 = .ok [] ∧
    countMatches ("ab".data) ("def ab():xabx".data) = 2 ∧
    specPerLineCount
      [("def ab():".data), ("xa".data), ("bx".data)] ("ab".data) = 1 :=
  ⟨rfl, by decide, by decide⟩

/-- C2 counterexample: the claim says every I/O failure met during the
    tree walk makes the scan fail.  On the tree t2 the walker stream holds
    an error item, yet scan_path succeeds: make_walker silently drops
    walker errors with filter_map(e.ok()). -/
theorem c2_counterexample :
    walk_has_error [] t2 = true ∧ scan_path [] t2 = .ok ([], "x".data) :=
  ⟨by decide, rfl⟩

/-- C2 amended: an I/O failure opening or reading a walked python file
    aborts the scan with an error, and these are the only scan failures;
    error items produced by the walker itself (vanished or unreadable
    entries) are silently discarded and do not fail the scan. -/
theorem c2_amended (p : FPath) (n : FSNode) :
    scan_path p n = .error () ↔
      (make_walker p n).any entry_has_io_error = true := by
  rw [scan_path_error_iff]
  exact processEntries_error_iff (make_walker p n)
    (fun e he => make_walker_python he)

/-- C3 counterexample: the claim says the captured name is the text after
    "def " up to but not including trailing whitespace before the
    parenthesis, and that any "def " with a hash-free prefix followed
    eventually by a parenthesis matches.  Both parts fail: on
    "def foo ():" the code captures "foo " with the trailing space
    included, not "foo"; and "def  x():" (two spaces) yields no candidate
    at all because the regex requires a non-space character right after
    the keyword. -/
theorem c3_counterexample :
    captureName ("def foo ():".data) = some ("foo ".data) ∧
    "foo ".data ≠ "foo".data ∧
    captureName ("def  x():".data) = none :=
  ⟨by decide, by decide, by decide⟩

/-- C3 amended: a line yields a candidate iff it splits as
    pre ++ "def " ++ rest with no hash sign in pre, a non-whitespace
    character heading rest, and a parenthesis strictly later in rest; the
    captured name is rest up to (not including) the last parenthesis of
    rest - trailing whitespace before it included - for the split with the
    longest workable pre.  A line where "def " appears only after a hash
    sign still yields no candidate. -/
theorem c3_amended (line : Chars) :
    ((captureName line).isSome = true ↔
      ∃ pre rest, line = pre ++ kw ++ rest ∧ hashFree pre = true ∧
        innerOk rest = true) ∧
    ∀ name, captureName line = some name →
      ∃ pre rest, line = pre ++ kw ++ rest ∧ hashFree pre = true ∧
        innerOk rest = true ∧ name = rest.take (lastParenIdx rest) ∧
        ∀ pre2 rest2, line = pre2 ++ kw ++ rest2 → hashFree pre2 = true →
          innerOk rest2 = true → pre2.length ≤ pre.length := by
  constructor
  · rw [captureName_isSome_iff]
    constructor
    · rintro ⟨i, hi⟩
      obtain ⟨hdec, h1, h2, _⟩ := goodSplit_decomp hi
      exact ⟨line.take i, line.drop (i + 4), hdec, h1, h2⟩
    · rintro ⟨pre, rest, hdec, h1, h2⟩
      refine ⟨pre.length, ?_⟩
      rw [hdec]
      exact goodSplit_of_decomp h1 h2
  · intro name hname
    obtain ⟨i, hgood, hnm, hmax⟩ := captureName_eq_some hname
    obtain ⟨hdec, h1, h2, hlen⟩ := goodSplit_decomp hgood
    refine ⟨line.take i, line.drop (i + 4), hdec, h1, h2, hnm, ?_⟩
    intro pre2 rest2 hdec2 h12 h22
    have hg2 : goodSplit line pre2.length = true := by
      rw [hdec2]
      exact goodSplit_of_decomp h12 h22
    have hle := hmax pre2.length hg2
    rw [hlen]
    exact hle

/-- C3 amended, exercised at the line "def f(x):", whose captured name is
    "f". -/
theorem c3_amended_witness :
    ∃ pre rest, "def f(x):".data = pre ++ kw ++ rest ∧ hashFree pre = true ∧
      innerOk rest = true ∧ "f".data = rest.take (lastParenIdx rest) ∧
      ∀ pre2 rest2, "def f(x):".data = pre2 ++ kw ++ rest2 →
        hashFree pre2 = true → innerOk rest2 = true →
        pre2.length ≤ pre.length :=
  (c3_amended ("def f(x):".data)).2 ("f".data) (by decide)

/-- C4 counterexample: the claim says the findings are ordered by
    lexicographic comparison of the file paths.  The code sorts by the
    location key, whose path component is a PathBuf compared component by
    component.  On t4 the code reports r/a/d.py before r/a-b/c.py, yet the
    whole path string r/a-b/c.py is lexicographically smaller (the hyphen
    sorts before the slash), so the claimed order is violated. -/
theorem c4_counterexample :
    main_run [] t4 = .ok [f_qtwo, f_qone] ∧
    joinPath f_qone.location.1 < joinPath f_qtwo.location.1 :=
  ⟨rfl, by decide⟩

/-- C4 amended: the findings are totally ordered by the location key:
    primarily by file path in PathBuf component order (component lists
    compared lexicographically, each component as a string), and for equal
    paths by ascending line number.  Across directories this component
    order can disagree with lexicographic order on the joined path
    string. -/
theorem c4_amended (hs : Chars) (fns : List Function) :
    (scan_for_unused_functions hs fns).Sorted locLeP := by
  unfold scan_for_unused_functions find_unused_functions
  exact List.sorted_insertionSort locLeP _

/-- C5: a candidate is reported iff its occurrence count over the haystack
    is strictly below two; counts of 0 and 1 are treated alike by the
    strict comparison. -/
theorem c5_theorem (p : FPath) (n : FSNode) (fns : List Function)
    (hs : Chars) (f : Function) (h : scan_path p n = .ok (fns, hs)) :
    f ∈ scan_for_unused_functions hs fns ↔
      f ∈ fns ∧ countMatches f.name hs < 2 := by
  rw [mem_scan_for_unused]
  constructor
  · rintro ⟨_, hm, hc⟩
    exact ⟨hm, hc⟩
  · rintro ⟨hm, hc⟩
    refine ⟨?_, hm, hc⟩
    obtain ⟨fns0, hpe, hdedup⟩ := scan_path_ok h
    rw [hdedup] at hm
    obtain ⟨_, _, hne, hinf⟩ :=
      processEntries_spec _ hpe f (List.mem_dedup.mp hm)
    intro hhs
    rw [hhs] at hinf
    exact hne (List.infix_nil.mp hinf)

/-- C5, exercised on the scan of t5: lone is reported there because its
    name occurs once, only on its declaration line. -/
theorem c5_witness :
    f_lone ∈ scan_for_unused_functions hs5 [f_lone, f_used] ↔
      f_lone ∈ [f_lone, f_used] ∧ countMatches f_lone.name hs5 < 2 :=
  c5_theorem [] t5 [f_lone, f_used] hs5 f_lone rfl

/-- C6: every reported function passes should_consider_function, i.e. its
    name contains neither "test_" nor "__" as a substring: such names are
    filtered out before a candidate is ever created. -/
theorem c6_theorem (p : FPath) (n : FSNode) (fns : List Function)
    (hs : Chars) (f : Function) (h : scan_path p n = .ok (fns, hs))
    (hf : f ∈ scan_for_unused_functions hs fns) :
    should_consider_function f.name = true ∧
      containsSub f.name ("test_".data) = false ∧
      containsSub f.name ("__".data) = false := by
  obtain ⟨_, hm, _⟩ := mem_scan_for_unused.mp hf
  obtain ⟨fns0, hpe, hdedup⟩ := scan_path_ok h
  rw [hdedup] at hm
  obtain ⟨_, hsc, _, _⟩ :=
    processEntries_spec _ hpe f (List.mem_dedup.mp hm)
  have hsc2 := hsc
  unfold should_consider_function at hsc2
  simp only [Bool.and_eq_true, Bool.not_eq_true'] at hsc2
  exact ⟨hsc, hsc2.1, hsc2.2⟩

/-- C6, exercised on the scan of t5 at the reported function lone. -/
theorem c6_witness :
    should_consider_function f_lone.name = true ∧
      containsSub f_lone.name ("test_".data) = false ∧
      containsSub f_lone.name ("__".data) = false :=
  c6_theorem [] t5 [f_lone, f_used] hs5 f_lone rfl (by decide)

/-- C7: the process exits zero exactly when the scan succeeded with no
    findings, and exits non-zero exactly when findings exist or an I/O
    failure aborted the scan. -/
theorem c7_theorem (p : FPath) (n : FSNode) :
    (exit_zero p n = true ↔ main_run p n = .ok []) ∧
    (exit_zero p n = false ↔
      (∃ fs, main_run p n = .ok fs ∧ fs ≠ []) ∨
        main_run p n = .error ()) := by
  unfold exit_zero
  cases hm : main_run p n with
  | error u =>
      cases u
      constructor
      · constructor
        · intro hc
          simp at hc
        · intro hc
          simp at hc
      · simp
  | ok fs =>
      cases fs with
      | nil =>
          constructor
          · simp [should_fail]
          · constructor
            · intro hc
              simp [should_fail] at hc
            · rintro (⟨fs2, hfs2, hne⟩ | habs)
              · have h0 : fs2 = [] := by simpa using hfs2
                exact absurd h0 hne
              · simp at habs
      | cons a t =>
          constructor
          · constructor
            · intro hc
              simp [should_fail] at hc
            · intro hc
              simp at hc
          · constructor
            · intro _
              exact Or.inl ⟨a :: t, rfl, by simp⟩
            · intro _
              simp [should_fail]

/-- C8: every candidate the collector produces has a non-empty name that
    occurs as a substring of the haystack (its declaration line is spooled
    there), so its occurrence count is at least one. -/
theorem c8_theorem (p : FPath) (n : FSNode) (fns : List Function)
    (hs : Chars) (f : Function) (h : scan_path p n = .ok (fns, hs))
    (hf : f ∈ fns) :
    f.name ≠ [] ∧ f.name <:+: hs ∧ 1 ≤ countMatches f.name hs := by
  obtain ⟨fns0, hpe, hdedup⟩ := scan_path_ok h
  rw [hdedup] at hf
  obtain ⟨_, _, hne, hinf⟩ :=
    processEntries_spec _ hpe f (List.mem_dedup.mp hf)
  exact ⟨hne, hinf, countMatches_pos hne hinf⟩

/-- C8, exercised on the scan of t5 at the candidate lone. -/
theorem c8_witness :
    f_lone.name ≠ [] ∧ f_lone.name <:+: hs5 ∧
      1 ≤ countMatches f_lone.name hs5 :=
  c8_theorem [] t5 [f_lone, f_used] hs5 f_lone rfl (by decide)

/-- C9: the classification and sort are insensitive to the enumeration
    order of the hash containers: when the walked file paths are distinct
    (as on a real file system), the scanned candidates have pairwise
    distinct locations, the sort key is unique per finding, and any two
    enumeration orders of the candidate set produce the same sorted
    finding list. -/
theorem c9_theorem (p : FPath) (n : FSNode)
    (fns fns1 fns2 : List Function) (hs : Chars)
    (hpaths : ((make_walker p n).map Prod.fst).Nodup)
    (h : scan_path p n = .ok (fns, hs))
    (h1 : fns1.Perm fns) (h2 : fns2.Perm fns) :
    scan_for_unused_functions hs fns1 = scan_for_unused_functions hs fns2 := by
  obtain ⟨fns0, hpe, hdedup⟩ := scan_path_ok h
  have hpair0 : fns0.Pairwise (fun f g => f.location ≠ g.location) :=
    processEntries_locs_pairwise _ hpe hpaths
  have hpair : fns.Pairwise (fun f g => f.location ≠ g.location) := by
    rw [hdedup]
    exact List.Pairwise.sublist (List.dedup_sublist fns0) hpair0
  have hnd : (fns.map (fun f => f.location)).Nodup := by
    refine List.Pairwise.map (fun f => f.location) ?_ hpair
    intro a b hab
    exact hab
  have hnd1 : (fns1.map (fun f => f.location)).Nodup :=
    ((h1.map (fun f => f.location)).symm).nodup hnd
  by_cases hhs : hs = []
  · subst hhs
    rfl
  · unfold scan_for_unused_functions find_unused_functions
    rw [countsTable_eq hhs fns1, countsTable_eq hhs fns2]
    have hcomm : ∀ l : List Function,
        ((l.map (fun f => (f, countMatches f.name hs))).filter
          (fun pr => decide (pr.2 < 2))).map Prod.fst =
          l.filter (fun f => decide (countMatches f.name hs < 2)) := by
      intro l
      induction l with
      | nil => rfl
      | cons a t iht =>
          simp only [List.map_cons, List.filter_cons]
          by_cases hc : decide (countMatches a.name hs < 2) = true
          · simp only [hc]
            simp [iht]
          · simp only [Bool.eq_false_iff.mpr hc]
            simp [iht]
    rw [hcomm fns1, hcomm fns2]
    apply insertionSort_eq_of_perm
    · exact (h1.filter _).trans ((h2.filter _).symm)
    · have hsub : (fns1.filter
          (fun f => decide (countMatches f.name hs < 2))).Sublist fns1 :=
        List.filter_sublist fns1
      exact List.Nodup.sublist (hsub.map (fun f => f.location)) hnd1

/-- C9, exercised on the scan of t5 with the two enumeration orders of its
    candidate set. -/
theorem c9_witness :
    scan_for_unused_functions hs5 [f_used, f_lone] =
      scan_for_unused_functions hs5 [f_lone, f_used] :=
  c9_theorem [] t5 [f_lone, f_used] [f_used, f_lone] [f_lone, f_used] hs5
    (by decide) rfl (by decide) (by decide)

/-- C10: an entry whose file name is not valid UTF-8 is silently excluded:
    the walker yields nothing for it (a directory's whole subtree is
    pruned, a file is skipped), so the walked file list and the whole scan
    are the same as if the entry were absent - exactly the treatment of a
    hidden entry. -/
theorem c10_theorem (q p : FPath) (dnm : Option Chars)
    (pre post : List FSNode) (bad : FSNode)
    (hbad : (∃ c, bad = FSNode.file none c) ∨
      ∃ ch, bad = FSNode.dir none ch) :
    walk q bad = [] ∧
    make_walker p (.dir dnm (FSList.ofList (pre ++ bad :: post))) =
      make_walker p (.dir dnm (FSList.ofList (pre ++ post))) ∧
    scan_path p (.dir dnm (FSList.ofList (pre ++ bad :: post))) =
      scan_path p (.dir dnm (FSList.ofList (pre ++ post))) := by
  have hwb : ∀ q2, walk q2 bad = [] := fun q2 => walk_none q2 bad hbad
  have hmw : make_walker p (.dir dnm (FSList.ofList (pre ++ bad :: post))) =
      make_walker p (.dir dnm (FSList.ofList (pre ++ post))) := by
    unfold make_walker
    by_cases husef : usefulName dnm = true
    · rw [walk_dir_true husef, walk_dir_true husef]
      have hwl : walkList (p ++ [dnm.getD []])
          (FSList.ofList (pre ++ bad :: post)) =
          walkList (p ++ [dnm.getD []]) (FSList.ofList (pre ++ post)) := by
        rw [walkList_ofList_append, walkList_ofList_append]
        simp [FSList.ofList, walkList, hwb]
      rw [hwl]
      simp [is_python_file]
    · rw [walk_dir_false (Bool.eq_false_iff.mpr husef),
        walk_dir_false (Bool.eq_false_iff.mpr husef)]
  refine ⟨hwb q, hmw, ?_⟩
  unfold scan_path
  rw [hmw]

/-- C10, exercised with a non-UTF-8-named file next to a healthy python
    file: the scan results coincide. -/
theorem c10_witness :
    scan_path [] (.dir (some ("r".data)) (FSList.ofList [bad10,
        .file (some ("a.py".data)) (.ok [.ok ("def g():".data)])])) =
      scan_path [] (.dir (some ("r".data)) (FSList.ofList
        [.file (some ("a.py".data)) (.ok [.ok ("def g():".data)])])) :=
  (c10_theorem [] [] (some ("r".data)) []
    [.file (some ("a.py".data)) (.ok [.ok ("def g():".data)])] bad10
    (Or.inl ⟨_, rfl⟩)).2.2
